import Mathlib

/-!
Shallow embedding of `src/app.py` (liquidity-monitor).

Dates are modelled as natural day numbers, cell values as rationals; a `none`
cell models a pandas `NaN`.  The data-alignment pipeline (`get_macro_data`,
lines 50-113 of the source), the tab-2 signal backtest (lines 166-200) and the
tab-1 correlation report (lines 123-124 and 158-163) are embedded below, each
definition translated from the corresponding pandas expression.
-/

namespace LiquidityMonitor

/-- A pandas `DataFrame` with a date index and named columns; a `none` entry
models a `NaN` cell.  Column lists run parallel to `dates`. -/
structure RawFrame where
  dates : List Nat
  cols : List (String × List (Option ℚ))
deriving DecidableEq

/-- The value `series.reindex(idx, method='ffill')` produces at one target
label `d`: the observation attached to the greatest series date `≤ d`
(pandas pad lookup on a monotonic index), `none` when no such date exists. -/
def locf (s : List (Nat × ℚ)) (d : Nat) : Option ℚ :=
  ((s.filter fun p => p.1 ≤ d).getLast?).map Prod.snd

/-- Lines 86-100 of `src/app.py`: a successfully fetched FRED series is
re-indexed onto the market index with `method='ffill'`; an empty fetch result
was replaced (line 92) by an all-`NaN` series on the market index, which
re-indexes to an all-`NaN` column. -/
def alignFred (s : List (Nat × ℚ)) (idx : List Nat) : List (Option ℚ) :=
  if s.isEmpty then idx.map fun _ => none else idx.map (locf s)

/-- Column-wise `DataFrame.ffill()` (line 103): each `NaN` cell is replaced by
the last non-`NaN` value seen above it, the accumulator starting empty. -/
def ffillCol (acc : Option ℚ) : List (Option ℚ) → List (Option ℚ)
  | [] => []
  | none :: rest => acc :: ffillCol acc rest
  | some v :: rest => some v :: ffillCol (some v) rest

/-- Whether row `i` survives `dropna()` (line 103): every column must hold a
value there.  An index beyond a column's length counts as missing. -/
def rowOk (cols : List (String × List (Option ℚ))) (i : Nat) : Bool :=
  cols.all fun c => (c.2.getD i none).isSome

/-- Row indices kept by `dropna()`. -/
def keptIdx (fr : RawFrame) : List Nat :=
  (List.range fr.dates.length).filter fun i => rowOk fr.cols i

/-- `DataFrame.dropna()` (line 103): drop every row that still holds a `NaN`
in any column. -/
def dropna (fr : RawFrame) : RawFrame :=
  { dates := (keptIdx fr).map fun i => fr.dates.getD i 0
    cols := fr.cols.map fun c => (c.1, (keptIdx fr).map fun i => c.2.getD i none) }

/-- The membership test `name in df.columns`. -/
def hasCol (fr : RawFrame) (s : String) : Bool :=
  fr.cols.any fun c => c.1 = s

/-- Column selection `df[name]`; in the source a missing name would raise a
`KeyError`, which never happens on the paths exercised below (the guard of
line 108 is proved always true), so the default `[]` branch is unreachable. -/
def getColD (fr : RawFrame) (s : String) : List (Option ℚ) :=
  ((fr.cols.find? fun c => c.1 = s).map Prod.snd).getD []

/-- The header `df.columns`. -/
def colNames (fr : RawFrame) : List String := fr.cols.map Prod.fst

/-- One cell of `df['WALCL']/1000 - df['WTREGEN'] - df['RRPONTSYD']`
(line 109); a `NaN` operand propagates, as in pandas. -/
def netLiqCell : Option ℚ → Option ℚ → Option ℚ → Option ℚ
  | some w, some t, some r => some (w / 1000 - t - r)
  | _, _, _ => none

/-- Element-wise combination of the three FRED columns, truncating at the
shortest (in the pipeline all three share the frame's row count). -/
def netLiqZip : List (Option ℚ) → List (Option ℚ) → List (Option ℚ) → List (Option ℚ)
  | w :: ws, t :: ts, r :: rs => netLiqCell w t r :: netLiqZip ws ts rs
  | _, _, _ => []

/-- The series assigned by line 109 of the source. -/
def netLiqCol (fr : RawFrame) : List (Option ℚ) :=
  netLiqZip (getColD fr "WALCL") (getColD fr "WTREGEN") (getColD fr "RRPONTSYD")

/-- Lines 108-111: the guarded assignment of the composite column.  pandas
appends a fresh column under a fresh name; the literal-zero branch broadcasts
`0` to every row. -/
def addNetLiq (fr : RawFrame) : RawFrame :=
  if hasCol fr "WALCL" && hasCol fr "WTREGEN" then
    { fr with cols := fr.cols ++ [("Net_Liquidity", netLiqCol fr)] }
  else
    { fr with cols := fr.cols ++ [("Net_Liquidity", fr.dates.map fun _ => some 0)] }

/-- Lines 94-100: the three FRED columns, re-indexed onto the market index. -/
def fredAligned (idx : List Nat) (walcl wtregen rrpontsyd : List (Nat × ℚ)) :
    List (String × List (Option ℚ)) :=
  [("WALCL", alignFred walcl idx), ("WTREGEN", alignFred wtregen idx),
   ("RRPONTSYD", alignFred rrpontsyd idx)]

/-- Line 103, left half: `market_data.join(fred_aligned)` — the joined frame
keeps the market index and appends the three FRED columns. -/
def joinedFrame (market : RawFrame) (walcl wtregen rrpontsyd : List (Nat × ℚ)) : RawFrame :=
  { dates := market.dates
    cols := market.cols ++ fredAligned market.dates walcl wtregen rrpontsyd }

/-- Line 103, `.ffill()` applied to every column of the joined frame. -/
def filledFrame (market : RawFrame) (walcl wtregen rrpontsyd : List (Nat × ℚ)) : RawFrame :=
  { dates := market.dates
    cols := (joinedFrame market walcl wtregen rrpontsyd).cols.map fun c =>
      (c.1, ffillCol none c.2) }

/-- Line 103, full: `market_data.join(fred_aligned).ffill().dropna()`. -/
def alignedFrame (market : RawFrame) (walcl wtregen rrpontsyd : List (Nat × ℚ)) : RawFrame :=
  dropna (filledFrame market walcl wtregen rrpontsyd)

/-- Lines 86-113 of `src/app.py`: the body of `get_macro_data` after the
(out-of-scope) fetches.  `market` is the cleaned Yahoo frame, the three lists
are the fetched FRED series (an empty list models a failed fetch, for which
line 92 substitutes an all-`NaN` series). -/
def get_macro_data (market : RawFrame) (walcl wtregen rrpontsyd : List (Nat × ℚ)) : RawFrame :=
  addNetLiq (alignedFrame market walcl wtregen rrpontsyd)

/-! ### Tab 2: the signal backtest (lines 166-200)

Tab 2 consumes the frame produced by `get_macro_data` after `dropna()`, whose
cells are all defined, so the two columns it touches are modelled as total
lists of rationals running parallel to the date index. -/

/-- The two columns of the aligned frame used by the backtest. -/
structure BTFrame where
  dates : List Nat
  usdjpy : List ℚ
  nasdaq : List ℚ
deriving DecidableEq

/-- `Series.pct_change(w)` (line 173): `v[i]/v[i-w] - 1`, undefined (`NaN`)
for the first `w` positions. -/
def pctChange (w : Nat) (v : List ℚ) : List (Option ℚ) :=
  (List.range v.length).map fun i =>
    if w ≤ i then some (v.getD i 0 / v.getD (i - w) 0 - 1) else none

/-- One cell of the boolean mask `df['JPY_Chg_10d'] < t` (line 176); a `NaN`
change never satisfies the comparison, as in pandas. -/
def sigCell (t : ℚ) : Option ℚ → Bool
  | some c => decide (c < t)
  | none => false

/-- Line 176: `df[df['JPY_Chg_10d'] < t].index` — the dates of the rows whose
rolling change is below the threshold. -/
def signalDates (dates : List Nat) (chg : List (Option ℚ)) (t : ℚ) : List Nat :=
  ((dates.zip chg).filter fun p => sigCell t p.2).map Prod.fst

/-- `df.loc[d][col]` on the date index: the value at the first row labelled
`d`, `none` when the label is absent (a `KeyError` in the source, absorbed by
the per-event `except`). -/
def locGet {α : Type} (dates : List Nat) (col : List α) (d : Nat) : Option α :=
  (dates.findIdx? fun x => x = d).bind fun i => col[i]?

/-- Absolute distance between two day numbers. -/
def ndist (a b : Nat) : Nat := max a b - min a b

/-- The pandas pad indexer on a monotonic index: the greatest row index whose
date is `≤ t`. -/
def padIdx : List Nat → Nat → Option Nat
  | [], _ => none
  | a :: l, t =>
    match padIdx l t with
    | some i => some (i + 1)
    | none => if a ≤ t then some 0 else none

/-- The pandas backfill indexer on a monotonic index: the least row index
whose date is `≥ t`. -/
def bfIdx : List Nat → Nat → Option Nat
  | [], _ => none
  | a :: l, t => if t ≤ a then some 0 else (bfIdx l t).map (· + 1)

/-- The row selected by the pandas nearest lookup on a uniquely valued,
monotonic increasing index: pandas keeps the pad candidate only when it is
strictly closer than the backfill candidate (`operator.lt` on the
distances), so a tie selects the backfill, i.e. the later, date. -/
def nearestIdx (dates : List Nat) (t : Nat) : Nat :=
  match padIdx dates t, bfIdx dates t with
  | some i, some j =>
      if ndist (dates.getD i 0) t < ndist (dates.getD j 0) t then i else j
  | some i, none => i
  | none, some j => j
  | none, none => 0

/-- `df.index.get_indexer([t], method='nearest')[0]` (line 188): pandas
first requires a uniquely valued index — on a duplicated index the call
raises `InvalidIndexError` before any method dispatch, modelled as `none`
(the per-event `except` absorbs it) — and only then performs the nearest
selection. -/
def getIndexerNearest (dates : List Nat) (t : Nat) : Option Nat :=
  if dates.Nodup then some (nearestIdx dates t) else none

/-- One backtest outcome row (lines 193-197). -/
structure OutRec where
  sigDate : Nat
  jpyChg : Option ℚ
  drawdown : ℚ
deriving DecidableEq

/-- Body of the per-signal loop (lines 180-198).  `none` models both the
`continue` taken when the 20-day target exceeds the last index entry and any
exception absorbed by the blanket `except: pass` (a failed label lookup, or
the `InvalidIndexError` that `get_indexer` raises on a non-unique index). -/
def evalEvent (f : BTFrame) (chg : List (Option ℚ)) (d : Nat) : Option OutRec := do
  let v0 ← locGet f.dates f.nasdaq d
  let last ← f.dates.getLast?
  if d + 20 > last then none
  else do
    let j ← getIndexerNearest f.dates (d + 20)
    let v1 ← f.nasdaq[j]?
    let c0 ← locGet f.dates chg d
    some ⟨d, c0, (v1 - v0) / v0⟩

/-- The `for date in signals` loop (lines 179-198): each event is evaluated
independently and failed events contribute nothing. -/
def processEvents (f : BTFrame) (chg : List (Option ℚ)) (evs : List Nat) : List OutRec :=
  evs.filterMap (evalEvent f chg)

/-- Lines 171-200 end to end: rolling change, signal filter, per-event
outcome evaluation.  The source instantiates the threshold at `-3/100`. -/
def backtest (f : BTFrame) (t : ℚ) : List OutRec :=
  processEvents f (pctChange 10 f.usdjpy) (signalDates f.dates (pctChange 10 f.usdjpy) t)

/-! ### Tab 1: the correlation report (lines 123-124 and 158-163) -/

/-- Arithmetic mean of a list of rationals. -/
def listMean (l : List ℚ) : ℚ := l.sum / l.length

/-- Pairwise-complete observations: rows where both cells are defined, as
used by `DataFrame.corr()`. -/
def pairObs (x y : List (Option ℚ)) : List (ℚ × ℚ) :=
  (x.zip y).filterMap fun p =>
    match p.1, p.2 with
    | some a, some b => some (a, b)
    | _, _ => none

/-- Centred cross-product sum `Σ (a - mean a)(b - mean b)` over paired rows. -/
def covSum (a b : List ℚ) : ℚ :=
  ((a.zip b).map fun p => (p.1 - listMean a) * (p.2 - listMean b)).sum

/-- Pearson correlation of two columns as computed by `DataFrame.corr()`:
`Σ(x-x̄)(y-ȳ) / sqrt(Σ(x-x̄)² · Σ(y-ȳ)²)` over pairwise-complete rows. -/
noncomputable def pearson (x y : List (Option ℚ)) : ℝ :=
  let p := pairObs x y
  let a := p.map Prod.fst
  let b := p.map Prod.snd
  (covSum a b : ℝ) / Real.sqrt ((covSum a a : ℝ) * (covSum b b : ℝ))

/-- `df.corr()` (line 124): the full pairwise Pearson matrix over every
column (all columns of the frame are numeric). -/
noncomputable def corrMatrix (fr : RawFrame) : List (String × List (String × ℝ)) :=
  fr.cols.map fun c => (c.1, fr.cols.map fun d => (d.1, pearson c.2 d.2))

/-- The column `corr_matrix[t]` of the correlation matrix: one (row-name,
correlation-with-`t`) pair per column of the frame. -/
noncomputable def corrRow (fr : RawFrame) (t : String) : List (String × ℝ) :=
  fr.cols.map fun c => (c.1, pearson c.2 (getColD fr t))

/-- `Series.sort_values(ascending=False)` (line 162): sort the (name, value)
pairs by descending value. -/
noncomputable def sortDescByVal (l : List (String × ℝ)) : List (String × ℝ) :=
  l.mergeSort fun a b => decide (b.2 ≤ a.2)

/-- Lines 160-162: the displayed correlation report for a target column,
guarded by the membership test `'Nasdaq' in corr_matrix.columns`. -/
noncomputable def targetCorrReport (fr : RawFrame) (t : String) :
    Option (List (String × ℝ)) :=
  if hasCol fr t then some (sortDescByVal (corrRow fr t)) else none

/-! ### Concrete instances used by witnesses and counterexamples -/

/-- A one-row market frame. -/
def mktA : RawFrame := ⟨[0], [("Nasdaq", [some 1])]⟩

/-- A two-row market frame. -/
def mktB : RawFrame := ⟨[0, 1], [("Nasdaq", [some 1, some 2])]⟩

/-- A one-row market frame with a different market column. -/
def mktC : RawFrame := ⟨[0], [("VIX", [some 5])]⟩

/-- A backtest frame whose 20-day target lands exactly midway between two
index dates (28 and 32 around target 30). -/
def btTie : BTFrame :=
  ⟨[0, 1, 2, 3, 4, 5, 6, 7, 8, 9, 10, 28, 32],
   [100, 100, 100, 100, 100, 100, 100, 100, 100, 100, 96, 100, 100],
   [1, 1, 1, 1, 1, 1, 1, 1, 1, 1, 100, 200, 300]⟩

/-- A strictly increasing backtest frame with one signal and an in-range
horizon. -/
def btOk : BTFrame :=
  ⟨[0, 1, 2, 3, 4, 5, 6, 7, 8, 9, 10, 29, 31],
   [100, 100, 100, 100, 100, 100, 100, 100, 100, 100, 96, 100, 100],
   [1, 1, 1, 1, 1, 1, 1, 1, 1, 1, 100, 200, 300]⟩

/-- A two-column frame for the correlation report. -/
def corrF : RawFrame :=
  ⟨[0, 1, 2], [("Nasdaq", [some 1, some 2, some 3]), ("A", [some 3, some 1, some 2])]⟩

/-! ### Basic lemmas about the alignment primitives -/

theorem alignFred_eq_map (s : List (Nat × ℚ)) (idx : List Nat) :
    alignFred s idx = idx.map (locf s) := by
  unfold alignFred
  split
  · next h =>
    obtain rfl : s = [] := List.isEmpty_iff.mp h
    exact List.map_inj_left.mpr fun d _ => rfl
  · rfl

theorem locf_none_mono (s : List (Nat × ℚ)) {d d' : Nat} (hdd : d ≤ d')
    (h : locf s d' = none) : locf s d = none := by
  unfold locf at h ⊢
  rw [Option.map_eq_none'] at h ⊢
  rw [List.getLast?_eq_none_iff] at h ⊢
  rw [List.filter_eq_nil_iff] at h ⊢
  intro p hp hpd
  exact h p hp (by simpa using le_trans (by simpa using hpd) hdd)

theorem ffillCol_eq_self :
    ∀ m : List (Option ℚ), m.Chain' (fun a b => b = none → a = none) →
      ffillCol none m = m := by
  intro m
  induction m with
  | nil => intro _; rfl
  | cons a m ih =>
    intro hm
    cases a with
    | none =>
      show none :: ffillCol none m = none :: m
      rw [ih hm.tail]
    | some v =>
      show some v :: ffillCol (some v) m = some v :: m
      congr 1
      cases m with
      | nil => rfl
      | cons b m' =>
        have hrel : b = none → some v = none := (List.chain'_cons.mp hm).1
        obtain ⟨u, rfl⟩ : ∃ u, b = some u := by
          cases b with
          | none => exact absurd (hrel rfl) (by simp)
          | some u => exact ⟨u, rfl⟩
        have := ih hm.tail
        show some u :: ffillCol (some u) m' = some u :: m'
        simpa [ffillCol] using this

theorem ffill_map_locf (s : List (Nat × ℚ)) (idx : List Nat)
    (hidx : idx.Chain' (· ≤ ·)) :
    ffillCol none (idx.map (locf s)) = idx.map (locf s) := by
  apply ffillCol_eq_self
  rw [List.chain'_map]
  exact List.Chain'.imp (fun a b hab h => locf_none_mono s hab h) hidx

theorem getLast?_rel_of_pairwise {α : Type} {R : α → α → Prop} :
    ∀ {l : List α}, l.Pairwise R → ∀ {p : α}, l.getLast? = some p →
      ∀ q ∈ l, q = p ∨ R q p := by
  intro l
  induction l with
  | nil => intro _ p hp; simp at hp
  | cons a l ih =>
    intro hpw p hp q hq
    cases l with
    | nil =>
      simp at hp hq
      subst hp; subst hq; exact Or.inl rfl
    | cons b l' =>
      rw [List.getLast?_cons_cons] at hp
      rcases List.mem_cons.mp hq with rfl | hq'
      · exact Or.inr ((List.pairwise_cons.mp hpw).1 p
          (List.mem_of_getLast?_eq_some hp))
      · exact ih (List.pairwise_cons.mp hpw).2 hp q hq'

theorem locf_spec {s : List (Nat × ℚ)} (hs : s.Pairwise fun a b => a.1 < b.1)
    {d : Nat} {v : ℚ} (h : locf s d = some v) :
    ∃ p ∈ s, p.2 = v ∧ p.1 ≤ d ∧ ∀ q ∈ s, q.1 ≤ d → q.1 ≤ p.1 := by
  unfold locf at h
  rw [Option.map_eq_some'] at h
  obtain ⟨p, hgl, hpv⟩ := h
  have hpf : p ∈ s.filter fun p => p.1 ≤ d := List.mem_of_getLast?_eq_some hgl
  have hps : p ∈ s := (List.mem_filter.mp hpf).1
  have hpd : p.1 ≤ d := by simpa using (List.mem_filter.mp hpf).2
  refine ⟨p, hps, hpv, hpd, ?_⟩
  intro q hq hqd
  have hqf : q ∈ s.filter fun p => p.1 ≤ d := List.mem_filter.mpr ⟨hq, by simpa using hqd⟩
  rcases getLast?_rel_of_pairwise (hs.filter _) hgl q hqf with rfl | hlt
  · exact le_rfl
  · exact le_of_lt hlt

/-! ### Lemmas about `dropna` -/

theorem filter_range_map_getD_sublist {α : Type} (l : List α) (d : α) :
    ∀ p : Nat → Bool,
      List.Sublist (((List.range l.length).filter p).map fun i => l.getD i d) l := by
  induction l with
  | nil => intro p; simp
  | cons a l ih =>
    intro p
    rw [List.length_cons, List.range_succ_eq_map, List.filter_cons]
    by_cases h : p 0 = true
    · rw [if_pos h, List.map_cons, List.getD_cons_zero, List.filter_map, List.map_map]
      refine List.Sublist.cons₂ _ ?_
      simpa [Function.comp_def, Nat.succ_eq_add_one] using ih fun i => p (i + 1)
    · rw [if_neg h, List.filter_map, List.map_map]
      refine List.Sublist.cons _ ?_
      simpa [Function.comp_def, Nat.succ_eq_add_one] using ih fun i => p (i + 1)

theorem keptIdx_mem {fr : RawFrame} {i : Nat} :
    i ∈ keptIdx fr ↔ i < fr.dates.length ∧ rowOk fr.cols i = true := by
  simp [keptIdx, List.mem_filter]

theorem dropna_dates_sublist (fr : RawFrame) : List.Sublist (dropna fr).dates fr.dates :=
  filter_range_map_getD_sublist fr.dates 0 _

theorem dropna_dates_getElem? (fr : RawFrame) {k : Nat} {d : Nat}
    (h : (dropna fr).dates[k]? = some d) :
    ∃ i, (keptIdx fr)[k]? = some i ∧ fr.dates.getD i 0 = d := by
  have : ((keptIdx fr).map fun i => fr.dates.getD i 0)[k]? = some d := h
  rw [List.getElem?_map] at this
  cases hi : (keptIdx fr)[k]? with
  | none => rw [hi] at this; simp at this
  | some i =>
    rw [hi] at this
    exact ⟨i, rfl, by simpa using this⟩

/-! ### Column-name bookkeeping -/

theorem hasCol_iff {fr : RawFrame} {s : String} :
    hasCol fr s = true ↔ s ∈ colNames fr := by
  simp [hasCol, colNames, List.any_eq_true, List.mem_map, decide_eq_true_eq]

theorem colNames_dropna (fr : RawFrame) : colNames (dropna fr) = colNames fr := by
  simp [colNames, dropna, List.map_map, Function.comp_def]

theorem colNames_filled (market : RawFrame) (w t r : List (Nat × ℚ)) :
    colNames (filledFrame market w t r) =
      colNames market ++ ["WALCL", "WTREGEN", "RRPONTSYD"] := by
  simp [colNames, filledFrame, joinedFrame, fredAligned, List.map_map, Function.comp_def]

theorem colNames_aligned (market : RawFrame) (w t r : List (Nat × ℚ)) :
    colNames (alignedFrame market w t r) =
      colNames market ++ ["WALCL", "WTREGEN", "RRPONTSYD"] := by
  rw [alignedFrame, colNames_dropna, colNames_filled]

theorem hasCol_aligned_of_mem (market : RawFrame) (w t r : List (Nat × ℚ))
    (key : String) (hk : key ∈ ["WALCL", "WTREGEN", "RRPONTSYD"]) :
    hasCol (alignedFrame market w t r) key = true := by
  rw [hasCol_iff, colNames_aligned]
  exact List.mem_append_right _ hk

/-! ### Resolving `getColD` through the pipeline stages -/

theorem getColD_dropna_of_hasCol {fr : RawFrame} {s : String}
    (h : hasCol fr s = true) :
    getColD (dropna fr) s = (keptIdx fr).map fun i => (getColD fr s).getD i none := by
  have hsome : (fr.cols.find? fun c => c.1 = s).isSome := by
    rw [List.find?_isSome]
    simpa [hasCol, List.any_eq_true] using h
  obtain ⟨c₀, hc₀⟩ := Option.isSome_iff_exists.mp hsome
  have : (dropna fr).cols.find? (fun c => c.1 = s) =
      some (c₀.1, (keptIdx fr).map fun i => c₀.2.getD i none) := by
    show (fr.cols.map fun c => (c.1, (keptIdx fr).map fun i => c.2.getD i none)).find?
        (fun c => c.1 = s) = _
    rw [List.find?_map]
    have : ((fun c : String × List (Option ℚ) => decide (c.1 = s)) ∘
        fun c : String × List (Option ℚ) =>
          (c.1, (keptIdx fr).map fun i => c.2.getD i none)) =
        fun c : String × List (Option ℚ) => decide (c.1 = s) := rfl
    rw [this, hc₀]
    rfl
  rw [getColD, this, getColD, hc₀]
  rfl

theorem getColD_filled_key (market : RawFrame) (w t r : List (Nat × ℚ))
    {key : String} {col : List (Option ℚ)}
    (hclash : ∀ c ∈ market.cols, ¬ c.1 = key)
    (hfind : (fredAligned market.dates w t r).find? (fun c => c.1 = key) =
      some (key, col)) :
    getColD (filledFrame market w t r) key = ffillCol none col := by
  have hmkt : market.cols.find? (fun c => c.1 = key) = none :=
    List.find?_eq_none.mpr fun c hc => by simpa using hclash c hc
  have : (filledFrame market w t r).cols.find? (fun c => c.1 = key) =
      some (key, ffillCol none col) := by
    show ((market.cols ++ fredAligned market.dates w t r).map fun c =>
        (c.1, ffillCol none c.2)).find? (fun c => c.1 = key) = _
    rw [List.find?_map]
    have hcomp : ((fun c : String × List (Option ℚ) => decide (c.1 = key)) ∘
        fun c : String × List (Option ℚ) => (c.1, ffillCol none c.2)) =
        fun c : String × List (Option ℚ) => decide (c.1 = key) := rfl
    rw [hcomp, List.find?_append, hmkt, Option.none_or, hfind]
    rfl
  rw [getColD, this]
  rfl

theorem fred_find_walcl (idx : List Nat) (w t r : List (Nat × ℚ)) :
    (fredAligned idx w t r).find? (fun c => c.1 = "WALCL") =
      some ("WALCL", alignFred w idx) := by
  simp [fredAligned, List.find?]

theorem fred_find_wtregen (idx : List Nat) (w t r : List (Nat × ℚ)) :
    (fredAligned idx w t r).find? (fun c => c.1 = "WTREGEN") =
      some ("WTREGEN", alignFred t idx) := by
  simp [fredAligned, List.find?]

theorem fred_find_rrpontsyd (idx : List Nat) (w t r : List (Nat × ℚ)) :
    (fredAligned idx w t r).find? (fun c => c.1 = "RRPONTSYD") =
      some ("RRPONTSYD", alignFred r idx) := by
  simp [fredAligned, List.find?]

theorem addNetLiq_of_guard {fr : RawFrame}
    (h1 : hasCol fr "WALCL" = true) (h2 : hasCol fr "WTREGEN" = true) :
    addNetLiq fr = { fr with cols := fr.cols ++ [("Net_Liquidity", netLiqCol fr)] } := by
  rw [addNetLiq, if_pos]
  rw [h1, h2]
  rfl

theorem getD_map_lt {α β : Type} (f : α → β) (l : List α) {i : Nat}
    (h : i < l.length) (d : α) (d' : β) :
    (l.map f).getD i d' = f (l.getD i d) := by
  rw [List.getD_eq_getElem?_getD, List.getElem?_map, List.getD_eq_getElem?_getD,
    List.getElem?_eq_getElem h]
  rfl

theorem rowOk_col {cols : List (String × List (Option ℚ))} {i : Nat}
    (h : rowOk cols i = true) {c : String × List (Option ℚ)} (hc : c ∈ cols) :
    (c.2.getD i none).isSome = true := by
  have := (List.all_eq_true.mp h) c hc
  simpa using this

theorem key_col_mem_filled (market : RawFrame) (w t r : List (Nat × ℚ))
    {key : String} {s : List (Nat × ℚ)}
    (hk : (key, s) ∈ [("WALCL", w), ("WTREGEN", t), ("RRPONTSYD", r)]) :
    (key, ffillCol none (alignFred s market.dates)) ∈
      (filledFrame market w t r).cols := by
  have : (key, alignFred s market.dates) ∈
      (joinedFrame market w t r).cols := by
    refine List.mem_append_right _ ?_
    rw [List.mem_cons, List.mem_cons, List.mem_singleton] at hk
    rcases hk with h | h | h <;>
      (rw [Prod.mk.injEq] at h; obtain ⟨rfl, rfl⟩ := h; simp [fredAligned])
  have h2 := List.mem_map_of_mem
    (fun c : String × List (Option ℚ) => (c.1, ffillCol none c.2)) this
  exact h2

theorem getColD_aligned_key (market : RawFrame) (w t r : List (Nat × ℚ))
    {key : String} {s : List (Nat × ℚ)}
    (hk : (key, s) ∈ [("WALCL", w), ("WTREGEN", t), ("RRPONTSYD", r)])
    (hclash : ∀ c ∈ market.cols, ¬ c.1 = key)
    (hmd : market.dates.Chain' (· ≤ ·)) :
    getColD (alignedFrame market w t r) key =
      (keptIdx (filledFrame market w t r)).map fun i =>
        (market.dates.map (locf s)).getD i none := by
  rw [List.mem_cons, List.mem_cons, List.mem_singleton] at hk
  have hkey3 : key ∈ ["WALCL", "WTREGEN", "RRPONTSYD"] := by
    rcases hk with h | h | h <;> (rw [Prod.mk.injEq] at h; simp [h.1])
  have hhc : hasCol (filledFrame market w t r) key = true := by
    rw [hasCol_iff, colNames_filled]
    exact List.mem_append_right _ hkey3
  have hfind : (fredAligned market.dates w t r).find? (fun c => c.1 = key) =
      some (key, alignFred s market.dates) := by
    rcases hk with h | h | h
    · rw [Prod.mk.injEq] at h
      obtain ⟨rfl, rfl⟩ := h
      exact fred_find_walcl _ _ _ _
    · rw [Prod.mk.injEq] at h
      obtain ⟨rfl, rfl⟩ := h
      exact fred_find_wtregen _ _ _ _
    · rw [Prod.mk.injEq] at h
      obtain ⟨rfl, rfl⟩ := h
      exact fred_find_rrpontsyd _ _ _ _
  have hcol : getColD (filledFrame market w t r) key =
      market.dates.map (locf s) := by
    rw [getColD_filled_key market w t r hclash hfind, alignFred_eq_map,
      ffill_map_locf s market.dates hmd]
  rw [alignedFrame, getColD_dropna_of_hasCol hhc, hcol]

theorem addNetLiq_dates (fr : RawFrame) : (addNetLiq fr).dates = fr.dates := by
  unfold addNetLiq
  split <;> rfl

theorem getColD_addNetLiq_of_hasCol {fr : RawFrame} {key : String}
    (h : hasCol fr key = true) :
    getColD (addNetLiq fr) key = getColD fr key := by
  have hsome : (fr.cols.find? fun c => c.1 = key).isSome := by
    rw [List.find?_isSome]
    simpa [hasCol, List.any_eq_true] using h
  obtain ⟨c₀, hc₀⟩ := Option.isSome_iff_exists.mp hsome
  unfold addNetLiq
  split
  all_goals
    show (((fr.cols ++ _).find? fun c => c.1 = key).map Prod.snd).getD [] = _
    rw [List.find?_append, hc₀, getColD, hc₀]
    rfl

theorem getColD_addNetLiq_netliq {fr : RawFrame}
    (h : "Net_Liquidity" ∉ colNames fr)
    (hg1 : hasCol fr "WALCL" = true) (hg2 : hasCol fr "WTREGEN" = true) :
    getColD (addNetLiq fr) "Net_Liquidity" = netLiqCol fr := by
  rw [addNetLiq_of_guard hg1 hg2]
  have hnone : fr.cols.find? (fun c => c.1 = "Net_Liquidity") = none := by
    refine List.find?_eq_none.mpr fun c hc => ?_
    simp only [decide_eq_true_eq]
    intro hcontra
    have hcc : hasCol fr "Net_Liquidity" = true :=
      List.any_eq_true.mpr ⟨c, hc, by simp [hcontra]⟩
    exact h (hasCol_iff.mp hcc)
  show (((fr.cols ++ _).find? fun c => c.1 = "Net_Liquidity").map Prod.snd).getD [] = _
  rw [List.find?_append, hnone, Option.none_or]
  simp [List.find?]

theorem netLiqZip_getElem? :
    ∀ (ws ts rs : List (Option ℚ)) (k : Nat), k < ws.length → k < ts.length →
      k < rs.length →
      (netLiqZip ws ts rs)[k]? =
        some (netLiqCell (ws.getD k none) (ts.getD k none) (rs.getD k none))
  | w :: ws, t :: ts, r :: rs, 0, _, _, _ => by
    show (netLiqCell w t r :: netLiqZip ws ts rs)[0]? = _
    simp
  | w :: ws, t :: ts, r :: rs, k + 1, hw, ht, hr => by
    show (netLiqCell w t r :: netLiqZip ws ts rs)[k + 1]? = _
    rw [List.getElem?_cons_succ]
    rw [netLiqZip_getElem? ws ts rs k (by simpa using hw) (by simpa using ht)
      (by simpa using hr)]
    simp

theorem netLiqZip_isSome {ws ts rs : List (Option ℚ)}
    (hw : ∀ x ∈ ws, x.isSome = true) (ht : ∀ x ∈ ts, x.isSome = true)
    (hr : ∀ x ∈ rs, x.isSome = true) :
    ∀ x ∈ netLiqZip ws ts rs, x.isSome = true := by
  induction ws generalizing ts rs with
  | nil => intro x hx; cases ts <;> cases rs <;> simp [netLiqZip] at hx
  | cons w ws ih =>
    intro x hx
    cases ts with
    | nil => simp [netLiqZip] at hx
    | cons t ts =>
      cases rs with
      | nil => simp [netLiqZip] at hx
      | cons r rs =>
        rcases List.mem_cons.mp hx with rfl | hx'
        · obtain ⟨wv, hwv⟩ := Option.isSome_iff_exists.mp (hw w (by simp))
          obtain ⟨tv, htv⟩ := Option.isSome_iff_exists.mp (ht t (by simp))
          obtain ⟨rv, hrv⟩ := Option.isSome_iff_exists.mp (hr r (by simp))
          subst hwv; subst htv; subst hrv
          rfl
        · exact ih (fun y hy => hw y (List.mem_cons_of_mem _ hy))
            (fun y hy => ht y (List.mem_cons_of_mem _ hy))
            (fun y hy => hr y (List.mem_cons_of_mem _ hy)) x hx'

theorem ffillCol_none_of_all_none :
    ∀ m : List (Option ℚ), (∀ x ∈ m, x = none) → ffillCol none m = m := by
  intro m
  induction m with
  | nil => intro _; rfl
  | cons a m ih =>
    intro h
    have ha : a = none := h a (by simp)
    subst ha
    show none :: ffillCol none m = none :: m
    rw [ih fun x hx => h x (List.mem_cons_of_mem _ hx)]

theorem keptIdx_nil_of_empty_fetch (market : RawFrame) (w t r : List (Nat × ℚ))
    (key : String) (s : List (Nat × ℚ))
    (hk : (key, s) ∈ [("WALCL", w), ("WTREGEN", t), ("RRPONTSYD", r)])
    (hs : s = []) :
    keptIdx (filledFrame market w t r) = [] := by
  subst hs
  have hmem := key_col_mem_filled market w t r hk
  have hcol : ffillCol none (alignFred [] market.dates) =
      market.dates.map (locf []) := by
    rw [alignFred_eq_map]
    refine ffillCol_none_of_all_none _ fun x hx => ?_
    obtain ⟨d, _, rfl⟩ := List.mem_map.mp hx
    rfl
  have hcell : ∀ i : Nat,
      (market.dates.map (locf ([] : List (Nat × ℚ)))).getD i none = none := by
    intro i
    rw [List.getD_eq_getElem?_getD, List.getElem?_map]
    cases market.dates[i]? <;> rfl
  rw [keptIdx, List.filter_eq_nil_iff]
  intro i _ hok
  have hsome := rowOk_col hok hmem
  rw [hcol] at hsome
  rw [hcell i] at hsome
  simp at hsome

theorem aligned_dates_nil_of_empty_fetch (market : RawFrame) (w t r : List (Nat × ℚ))
    (key : String) (s : List (Nat × ℚ))
    (hk : (key, s) ∈ [("WALCL", w), ("WTREGEN", t), ("RRPONTSYD", r)])
    (hs : s = []) :
    (alignedFrame market w t r).dates = [] := by
  show (keptIdx (filledFrame market w t r)).map _ = []
  rw [keptIdx_nil_of_empty_fetch market w t r key s hk hs]
  rfl

theorem colNames_addNetLiq (fr : RawFrame) :
    colNames (addNetLiq fr) = colNames fr ++ ["Net_Liquidity"] := by
  unfold addNetLiq
  split <;> simp [colNames]

theorem hasCol_addNetLiq_netliq (fr : RawFrame) :
    hasCol (addNetLiq fr) "Net_Liquidity" = true := by
  rw [hasCol_iff, colNames_addNetLiq]
  simp

theorem hasCol_addNetLiq_of_hasCol {fr : RawFrame} {key : String}
    (h : hasCol fr key = true) :
    hasCol (addNetLiq fr) key = true := by
  rw [hasCol_iff, colNames_addNetLiq]
  exact List.mem_append_left _ (hasCol_iff.mp h)

theorem getElem?_some_imp {α : Type} {l : List α} {k : Nat} {x : α}
    (h : l[k]? = some x) : k < l.length ∧ l.getD k x = x := by
  have hk : k < l.length := by
    by_contra hk
    rw [List.getElem?_eq_none (by omega)] at h
    exact Option.noConfusion h
  refine ⟨hk, ?_⟩
  rw [List.getD_eq_getElem?_getD, h]
  rfl

theorem getColD_dropna_all_some {fr : RawFrame} {key : String}
    (h : hasCol fr key = true) :
    ∀ x ∈ getColD (dropna fr) key, x.isSome = true := by
  have hsome : (fr.cols.find? fun c => c.1 = key).isSome := by
    rw [List.find?_isSome]
    simpa [hasCol, List.any_eq_true] using h
  obtain ⟨c₀, hc₀⟩ := Option.isSome_iff_exists.mp hsome
  have hc₀mem : c₀ ∈ fr.cols := List.mem_of_find?_eq_some hc₀
  have hCol : getColD fr key = c₀.2 := by
    rw [getColD, hc₀]
    rfl
  rw [getColD_dropna_of_hasCol h, hCol]
  intro x hx
  obtain ⟨i, hi, rfl⟩ := List.mem_map.mp hx
  exact rowOk_col (keptIdx_mem.mp hi).2 hc₀mem

theorem ffillCol_getD_isSome :
    ∀ (m : List (Option ℚ)) (acc : Option ℚ) (i : Nat), i < m.length →
      (acc.isSome = true ∨ ∃ j, j ≤ i ∧ (m.getD j none).isSome = true) →
      ((ffillCol acc m).getD i none).isSome = true := by
  intro m
  induction m with
  | nil =>
    intro acc i hi _
    simp at hi
  | cons a m ih =>
    intro acc i hi hor
    cases a with
    | some v =>
      show (((some v) :: ffillCol (some v) m).getD i none).isSome = true
      cases i with
      | zero => rfl
      | succ i' =>
        rw [List.getD_cons_succ]
        exact ih (some v) i' (by simpa using hi) (Or.inl rfl)
    | none =>
      show ((acc :: ffillCol acc m).getD i none).isSome = true
      cases i with
      | zero =>
        rw [List.getD_cons_zero]
        rcases hor with h | ⟨j, hj0, hjs⟩
        · exact h
        · obtain rfl : j = 0 := Nat.le_zero.mp hj0
          simp at hjs
      | succ i' =>
        rw [List.getD_cons_succ]
        refine ih acc i' (by simpa using hi) ?_
        rcases hor with h | ⟨j, hji, hjs⟩
        · exact Or.inl h
        · cases j with
          | zero => simp at hjs
          | succ j' => exact Or.inr ⟨j', by omega, by simpa using hjs⟩

theorem locf_isSome_of_obs {s : List (Nat × ℚ)} {d : Nat}
    (h : ∃ p ∈ s, p.1 ≤ d) : (locf s d).isSome = true := by
  obtain ⟨p, hp, hpd⟩ := h
  rw [locf, Option.isSome_map']
  have hne : s.filter (fun p => p.1 ≤ d) ≠ [] :=
    List.ne_nil_of_mem (List.mem_filter.mpr ⟨hp, by simpa using hpd⟩)
  rw [Option.isSome_iff_ne_none]
  intro hcon
  exact hne (List.getLast?_eq_none_iff.mp hcon)

/-! ### The nearest-date lookup -/

theorem padIdx_none : ∀ {l : List Nat} {t : Nat}, padIdx l t = none →
    ∀ i < l.length, ¬ l.getD i 0 ≤ t := by
  intro l
  induction l with
  | nil => intro t _ i hi; simp at hi
  | cons a l ih =>
    intro t h i hi
    cases hp : padIdx l t with
    | some j => simp [padIdx, hp] at h
    | none =>
      by_cases ha : a ≤ t
      · simp [padIdx, hp, ha] at h
      · cases i with
        | zero => simpa using ha
        | succ i' =>
          have := ih hp i' (by simpa using hi)
          simpa using this

theorem padIdx_some : ∀ {l : List Nat} {t i : Nat}, padIdx l t = some i →
    i < l.length ∧ l.getD i 0 ≤ t ∧ ∀ k < l.length, l.getD k 0 ≤ t → k ≤ i := by
  intro l
  induction l with
  | nil => intro t i h; simp [padIdx] at h
  | cons a l ih =>
    intro t i h
    cases hp : padIdx l t with
    | some j =>
      simp only [padIdx, hp] at h
      obtain rfl : j + 1 = i := by simpa using h
      obtain ⟨hj1, hj2, hj3⟩ := ih hp
      refine ⟨by simpa using Nat.succ_lt_succ hj1, by simpa using hj2, ?_⟩
      intro k hk hkle
      cases k with
      | zero => omega
      | succ k' =>
        have := hj3 k' (by simpa using hk) (by simpa using hkle)
        omega
    | none =>
      by_cases ha : a ≤ t
      · simp only [padIdx, hp, if_pos ha] at h
        obtain rfl : (0 : Nat) = i := by simpa using h
        refine ⟨by simp, by simpa using ha, ?_⟩
        intro k hk hkle
        cases k with
        | zero => omega
        | succ k' =>
          exact absurd (by simpa using hkle) (padIdx_none hp k' (by simpa using hk))
      · simp [padIdx, hp, if_neg ha] at h

theorem bfIdx_none : ∀ {l : List Nat} {t : Nat}, bfIdx l t = none →
    ∀ i < l.length, ¬ t ≤ l.getD i 0 := by
  intro l
  induction l with
  | nil => intro t _ i hi; simp at hi
  | cons a l ih =>
    intro t h i hi
    by_cases ha : t ≤ a
    · simp [bfIdx, ha] at h
    · cases i with
      | zero => simpa using ha
      | succ i' =>
        have hb : bfIdx l t = none := by
          cases hb' : bfIdx l t with
          | none => rfl
          | some j => simp [bfIdx, ha, hb'] at h
        have := ih hb i' (by simpa using hi)
        simpa using this

theorem bfIdx_some : ∀ {l : List Nat} {t j : Nat}, bfIdx l t = some j →
    j < l.length ∧ t ≤ l.getD j 0 ∧ ∀ k < l.length, t ≤ l.getD k 0 → j ≤ k := by
  intro l
  induction l with
  | nil => intro t j h; simp [bfIdx] at h
  | cons a l ih =>
    intro t j h
    by_cases ha : t ≤ a
    · simp only [bfIdx, if_pos ha] at h
      obtain rfl : (0 : Nat) = j := by simpa using h
      exact ⟨by simp, by simpa using ha, fun k _ _ => Nat.zero_le k⟩
    · cases hb : bfIdx l t with
      | none => simp [bfIdx, ha, hb] at h
      | some j' =>
        simp only [bfIdx, if_neg ha, hb, Option.map_some'] at h
        obtain rfl : j' + 1 = j := by simpa using h
        obtain ⟨hj1, hj2, hj3⟩ := ih hb
        refine ⟨by simpa using Nat.succ_lt_succ hj1, by simpa using hj2, ?_⟩
        intro k hk hkle
        cases k with
        | zero => exact absurd (by simpa using hkle) ha
        | succ k' =>
          have := hj3 k' (by simpa using hk) (by simpa using hkle)
          omega

theorem getD_mono_of_pairwise_lt {l : List Nat} (h : l.Pairwise (· < ·))
    {i j : Nat} (hij : i ≤ j) (hj : j < l.length) : l.getD i 0 ≤ l.getD j 0 := by
  rcases Nat.lt_or_ge i j with hlt | hge
  · have hi : i < l.length := lt_trans hlt hj
    have hR := (List.pairwise_iff_getElem.mp h) i j hi hj hlt
    rw [List.getD_eq_getElem?_getD, List.getD_eq_getElem?_getD,
      List.getElem?_eq_getElem hi, List.getElem?_eq_getElem hj]
    exact le_of_lt hR
  · obtain rfl : i = j := le_antisymm hij hge
    exact le_rfl

theorem ndist_of_le_left {a t : Nat} (h : a ≤ t) : ndist a t = t - a := by
  rw [ndist, Nat.max_eq_right h, Nat.min_eq_left h]

theorem ndist_of_le_right {a t : Nat} (h : t ≤ a) : ndist a t = a - t := by
  rw [ndist, Nat.max_eq_left h, Nat.min_eq_right h]

theorem nearestIdx_eq_of_some_some {dates : List Nat} {t i j : Nat}
    (hp : padIdx dates t = some i) (hb : bfIdx dates t = some j) :
    nearestIdx dates t =
      if ndist (dates.getD i 0) t < ndist (dates.getD j 0) t then i else j := by
  unfold nearestIdx
  rw [hp, hb]

theorem nearestIdx_eq_of_some_none {dates : List Nat} {t i : Nat}
    (hp : padIdx dates t = some i) (hb : bfIdx dates t = none) :
    nearestIdx dates t = i := by
  unfold nearestIdx
  rw [hp, hb]

theorem nearestIdx_eq_of_none_some {dates : List Nat} {t j : Nat}
    (hp : padIdx dates t = none) (hb : bfIdx dates t = some j) :
    nearestIdx dates t = j := by
  unfold nearestIdx
  rw [hp, hb]

/-- Specification of the pandas `nearest` lookup on a monotonic increasing
index: the selected row is in range, its date minimizes the distance to the
target, and among equally distant dates the selected one is the latest. -/
theorem nearestIdx_spec (dates : List Nat) (t : Nat)
    (hsort : dates.Pairwise (· < ·)) (hne : dates ≠ []) :
    nearestIdx dates t < dates.length ∧
    (∀ k < dates.length,
      ndist (dates.getD (nearestIdx dates t) 0) t ≤ ndist (dates.getD k 0) t) ∧
    (∀ k < dates.length,
      ndist (dates.getD k 0) t = ndist (dates.getD (nearestIdx dates t) 0) t →
      dates.getD k 0 ≤ dates.getD (nearestIdx dates t) 0) := by
  cases hp : padIdx dates t with
  | some i =>
    obtain ⟨hi1, hi2, hi3⟩ := padIdx_some hp
    cases hb : bfIdx dates t with
    | some j =>
      obtain ⟨hj1, hj2, hj3⟩ := bfIdx_some hb
      have hdi : ndist (dates.getD i 0) t = t - dates.getD i 0 := ndist_of_le_left hi2
      have hdj : ndist (dates.getD j 0) t = dates.getD j 0 - t := ndist_of_le_right hj2
      by_cases hcmp : ndist (dates.getD i 0) t < ndist (dates.getD j 0) t
      · rw [nearestIdx_eq_of_some_some hp hb, if_pos hcmp]
        refine ⟨hi1, ?_, ?_⟩
        · intro k hk
          rcases Nat.le_total (dates.getD k 0) t with hkt | hkt
          · have hki : k ≤ i := hi3 k hk hkt
            have := getD_mono_of_pairwise_lt hsort hki hi1
            rw [hdi, ndist_of_le_left hkt]
            omega
          · have hjk : j ≤ k := hj3 k hk hkt
            have := getD_mono_of_pairwise_lt hsort hjk hk
            rw [ndist_of_le_right hkt]
            omega
        · intro k hk heq
          rcases Nat.le_total (dates.getD k 0) t with hkt | hkt
          · rw [ndist_of_le_left hkt, hdi] at heq
            omega
          · have hjk : j ≤ k := hj3 k hk hkt
            have hmono := getD_mono_of_pairwise_lt hsort hjk hk
            rw [ndist_of_le_right hkt, hdi] at heq
            omega
      · rw [nearestIdx_eq_of_some_some hp hb, if_neg hcmp]
        push_neg at hcmp
        refine ⟨hj1, ?_, ?_⟩
        · intro k hk
          rcases Nat.le_total (dates.getD k 0) t with hkt | hkt
          · have hki : k ≤ i := hi3 k hk hkt
            have := getD_mono_of_pairwise_lt hsort hki hi1
            rw [ndist_of_le_left hkt]
            omega
          · have hjk : j ≤ k := hj3 k hk hkt
            have := getD_mono_of_pairwise_lt hsort hjk hk
            rw [hdj, ndist_of_le_right hkt]
            omega
        · intro k hk heq
          rcases Nat.le_total (dates.getD k 0) t with hkt | hkt
          · exact le_trans hkt hj2
          · rw [ndist_of_le_right hkt, hdj] at heq
            omega
    | none =>
      have hall : ∀ k < dates.length, dates.getD k 0 ≤ t := by
        intro k hk
        rcases Nat.le_total (dates.getD k 0) t with hkt | hkt
        · exact hkt
        · exact absurd hkt (bfIdx_none hb k hk)
      rw [nearestIdx_eq_of_some_none hp hb]
      refine ⟨hi1, ?_, ?_⟩
      · intro k hk
        have hki : k ≤ i := hi3 k hk (hall k hk)
        have := getD_mono_of_pairwise_lt hsort hki hi1
        rw [ndist_of_le_left hi2, ndist_of_le_left (hall k hk)]
        omega
      · intro k hk _
        exact getD_mono_of_pairwise_lt hsort (hi3 k hk (hall k hk)) hi1
  | none =>
    cases hb : bfIdx dates t with
    | some j =>
      obtain ⟨hj1, hj2, hj3⟩ := bfIdx_some hb
      have hall : ∀ k < dates.length, t ≤ dates.getD k 0 := by
        intro k hk
        rcases Nat.le_total (dates.getD k 0) t with hkt | hkt
        · exact absurd hkt (padIdx_none hp k hk)
        · exact hkt
      rw [nearestIdx_eq_of_none_some hp hb]
      refine ⟨hj1, ?_, ?_⟩
      · intro k hk
        have hjk : j ≤ k := hj3 k hk (hall k hk)
        have := getD_mono_of_pairwise_lt hsort hjk hk
        rw [ndist_of_le_right hj2, ndist_of_le_right (hall k hk)]
        omega
      · intro k hk heq
        have hjk : j ≤ k := hj3 k hk (hall k hk)
        have := getD_mono_of_pairwise_lt hsort hjk hk
        rw [ndist_of_le_right (hall k hk), ndist_of_le_right hj2] at heq
        omega
    | none =>
      exfalso
      obtain ⟨a, l, rfl⟩ : ∃ a l, dates = a :: l := by
        cases dates with
        | nil => exact absurd rfl hne
        | cons a l => exact ⟨a, l, rfl⟩
      rcases Nat.le_total a t with hat | hat
      · exact padIdx_none hp 0 (by simp) (by simpa using hat)
      · exact bfIdx_none hb 0 (by simp) (by simpa using hat)

/-! ### Claim theorems -/

/-- C10: the guard `'WALCL' in df.columns and 'WTREGEN' in df.columns`
(line 108) always holds, because the alignment step unconditionally creates a
column for each of the three FRED identifiers (even for an empty fetch
result), so the `Net_Liquidity` column is always assigned the formula column
(over possibly zero rows) and the literal-zero else-branch is unreachable. -/
theorem netLiq_guard_unreachable (market : RawFrame) (w t r : List (Nat × ℚ)) :
    hasCol (alignedFrame market w t r) "WALCL" = true ∧
    hasCol (alignedFrame market w t r) "WTREGEN" = true ∧
    hasCol (alignedFrame market w t r) "RRPONTSYD" = true ∧
    get_macro_data market w t r =
      { alignedFrame market w t r with
        cols := (alignedFrame market w t r).cols ++
          [("Net_Liquidity", netLiqCol (alignedFrame market w t r))] } := by
  refine ⟨hasCol_aligned_of_mem _ _ _ _ _ (by simp),
    hasCol_aligned_of_mem _ _ _ _ _ (by simp),
    hasCol_aligned_of_mem _ _ _ _ _ (by simp), ?_⟩
  rw [get_macro_data, addNetLiq_of_guard (hasCol_aligned_of_mem _ _ _ _ _ (by simp))
    (hasCol_aligned_of_mem _ _ _ _ _ (by simp))]

/-- C1 counterexample: with the balance-sheet fetch returning no data, the
claim demands that the `Net_Liquidity` column be absent from the output
dataset, but the code always produces the column (here over zero rows). -/
theorem netLiq_present_on_failed_fetch :
    hasCol (get_macro_data mktA [] [] []) "Net_Liquidity" = true := by decide

/-- C1 (amended): the `Net_Liquidity` column is always present; when one of
the three inputs fails to align, every row is dropped instead, so the output
dataset is empty and the indicator carries no zero or sentinel value at any
date; at every retained row where the three inputs exist, its value is
`WALCL/1000 - WTREGEN - RRPONTSYD`. -/
theorem netLiq_column_and_formula (market : RawFrame) (w t r : List (Nat × ℚ))
    (hclash : ∀ c ∈ market.cols,
      c.1 ∉ (["WALCL", "WTREGEN", "RRPONTSYD", "Net_Liquidity"] : List String)) :
    hasCol (get_macro_data market w t r) "Net_Liquidity" = true ∧
    (w = [] ∨ t = [] ∨ r = [] → (get_macro_data market w t r).dates = []) ∧
    (∀ (k : Nat) (wv tv rv : ℚ),
      (getColD (get_macro_data market w t r) "WALCL")[k]? = some (some wv) →
      (getColD (get_macro_data market w t r) "WTREGEN")[k]? = some (some tv) →
      (getColD (get_macro_data market w t r) "RRPONTSYD")[k]? = some (some rv) →
      (getColD (get_macro_data market w t r) "Net_Liquidity")[k]? =
        some (some (wv / 1000 - tv - rv))) := by
  refine ⟨hasCol_addNetLiq_netliq _, ?_, ?_⟩
  · rintro (rfl | rfl | rfl)
    · rw [get_macro_data, addNetLiq_dates]
      exact aligned_dates_nil_of_empty_fetch market [] t r "WALCL" [] (by simp) rfl
    · rw [get_macro_data, addNetLiq_dates]
      exact aligned_dates_nil_of_empty_fetch market w [] r "WTREGEN" [] (by simp) rfl
    · rw [get_macro_data, addNetLiq_dates]
      exact aligned_dates_nil_of_empty_fetch market w t [] "RRPONTSYD" [] (by simp) rfl
  · intro k wv tv rv hW hT hR
    have hcW := getColD_addNetLiq_of_hasCol
      (hasCol_aligned_of_mem market w t r "WALCL" (by simp))
    have hcT := getColD_addNetLiq_of_hasCol
      (hasCol_aligned_of_mem market w t r "WTREGEN" (by simp))
    have hcR := getColD_addNetLiq_of_hasCol
      (hasCol_aligned_of_mem market w t r "RRPONTSYD" (by simp))
    rw [show get_macro_data market w t r = addNetLiq (alignedFrame market w t r) from rfl]
      at hW hT hR ⊢
    rw [hcW] at hW
    rw [hcT] at hT
    rw [hcR] at hR
    have hnl : "Net_Liquidity" ∉ colNames (alignedFrame market w t r) := by
      rw [colNames_aligned]
      intro hmem
      rcases List.mem_append.mp hmem with h1 | h2
      · obtain ⟨c, hc, hceq⟩ := List.mem_map.mp h1
        exact hclash c hc (by rw [hceq]; simp)
      · simp at h2
    rw [getColD_addNetLiq_netliq hnl
      (hasCol_aligned_of_mem market w t r "WALCL" (by simp))
      (hasCol_aligned_of_mem market w t r "WTREGEN" (by simp))]
    obtain ⟨hkW, hgW⟩ := getElem?_some_imp hW
    obtain ⟨hkT, hgT⟩ := getElem?_some_imp hT
    obtain ⟨hkR, hgR⟩ := getElem?_some_imp hR
    rw [netLiqCol, netLiqZip_getElem? _ _ _ k hkW hkT hkR]
    rw [List.getD_eq_getElem?_getD, hW] at hgW ⊢
    rw [List.getD_eq_getElem?_getD, hT]
    rw [List.getD_eq_getElem?_getD, hR]
    rfl

/-- C1 witness: a concrete run in which all three FRED series align at the
single retained date and the indicator takes the formula value. -/
theorem netLiq_column_and_formula_witness :
    hasCol (get_macro_data mktB [(0, 1000)] [(0, 2)] [(0, 3)]) "Net_Liquidity" = true ∧
    (getColD (get_macro_data mktB [(0, 1000)] [(0, 2)] [(0, 3)]) "Net_Liquidity")[0]? =
      some (some (1000 / 1000 - 2 - 3)) :=
  ⟨(netLiq_column_and_formula mktB [(0, 1000)] [(0, 2)] [(0, 3)] (by decide)).1,
   (netLiq_column_and_formula mktB [(0, 1000)] [(0, 2)] [(0, 3)] (by decide)).2.2
     0 1000 2 3 (by decide) (by decide) (by decide)⟩

/-- C5 counterexample: the claim demands that a series with no observations
yield no column at all, but the code keeps the `WALCL` column (over zero
rows) when the WALCL fetch returned nothing. -/
theorem missing_series_column_present :
    hasCol (get_macro_data mktC [] [(0, 2)] [(0, 3)]) "WALCL" = true := by decide

/-- C5 (amended): when ANY of the three requested FRED series (under its
key) supplies no observations, its column is still present, but the
all-missing column makes `dropna` drop every row: the output dataset is
empty (all columns, including the derived `Net_Liquidity`, have zero rows),
and all requested columns are still produced in the header. -/
theorem missing_series_empties_frame (market : RawFrame) (w t r : List (Nat × ℚ))
    (key : String) (s : List (Nat × ℚ))
    (hk : (key, s) ∈ [("WALCL", w), ("WTREGEN", t), ("RRPONTSYD", r)])
    (hs : s = []) :
    hasCol (get_macro_data market w t r) key = true ∧
    (get_macro_data market w t r).dates = [] ∧
    colNames (get_macro_data market w t r) =
      colNames market ++ ["WALCL", "WTREGEN", "RRPONTSYD", "Net_Liquidity"] ∧
    ∀ c ∈ (get_macro_data market w t r).cols, c.2 = [] := by
  have hkey3 : key ∈ ["WALCL", "WTREGEN", "RRPONTSYD"] := by
    rw [List.mem_cons, List.mem_cons, List.mem_singleton] at hk
    rcases hk with h | h | h <;> (rw [Prod.mk.injEq] at h; simp [h.1])
  have hkept := keptIdx_nil_of_empty_fetch market w t r key s hk hs
  refine ⟨hasCol_addNetLiq_of_hasCol
    (hasCol_aligned_of_mem market w t r key hkey3), ?_, ?_, ?_⟩
  · rw [get_macro_data, addNetLiq_dates]
    exact aligned_dates_nil_of_empty_fetch market w t r key s hk hs
  · rw [get_macro_data, colNames_addNetLiq, colNames_aligned]
    simp
  · intro c hc
    rw [get_macro_data, addNetLiq_of_guard
      (hasCol_aligned_of_mem market w t r "WALCL" (by simp))
      (hasCol_aligned_of_mem market w t r "WTREGEN" (by simp))] at hc
    rcases List.mem_append.mp hc with h1 | h2
    · show c.2 = []
      obtain ⟨c₀, _, hceq⟩ := List.mem_map.mp (show c ∈ (filledFrame market w t r).cols.map
        (fun c => (c.1, (keptIdx (filledFrame market w t r)).map fun i => c.2.getD i none))
        from h1)
      rw [← hceq]
      show (keptIdx (filledFrame market w t r)).map _ = []
      rw [hkept]
      rfl
    · have hc2 : c = ("Net_Liquidity", netLiqCol (alignedFrame market w t r)) := by
        simpa using h2
      subst hc2
      show netLiqCol (alignedFrame market w t r) = []
      have hf : hasCol (filledFrame market w t r) "WALCL" = true := by
        rw [hasCol_iff, colNames_filled]
        exact List.mem_append_right _ (by simp)
      have hW : getColD (alignedFrame market w t r) "WALCL" = [] := by
        rw [alignedFrame, getColD_dropna_of_hasCol hf, hkept]
        rfl
      rw [netLiqCol, hW]
      rfl

/-- C5 witness: a concrete failed WTREGEN fetch (the other two series
succeeding) leaving its column present and the dataset empty. -/
theorem missing_series_empties_frame_witness :
    hasCol (get_macro_data mktC [(0, 9)] [] [(0, 3)]) "WTREGEN" = true ∧
    (get_macro_data mktC [(0, 9)] [] [(0, 3)]).dates = [] :=
  ⟨(missing_series_empties_frame mktC [(0, 9)] [] [(0, 3)] "WTREGEN" []
      (by decide) rfl).1,
   (missing_series_empties_frame mktC [(0, 9)] [] [(0, 3)] "WTREGEN" []
      (by decide) rfl).2.1⟩

/-- C2: for a market (reference) index with distinct ascending dates and any
of the three lower-frequency FRED series `s` under its key, the output date
axis equals the reference date axis minus exactly the excluded dates: it is
an ascending sub-sequence of the reference dates (first two conjuncts), and
conversely every eligible reference date — one at which every market column
already has an observation at or before it and every FRED series has an
observation at or before it — is retained (last conjunct), so no eligible
row is dropped; the aligned value of the series' column at every retained
date `d` is the series' most recent observation at or before `d` (last
observation carried forward); every reference date preceding the series'
first observation is excluded; and the final dataset holds no undefined
value in any column at any retained date. -/
theorem alignment_correct (market : RawFrame) (w t r s : List (Nat × ℚ))
    (key : String)
    (hmd : market.dates.Pairwise (· < ·))
    (hk : (key, s) ∈ [("WALCL", w), ("WTREGEN", t), ("RRPONTSYD", r)])
    (hclash : ∀ c ∈ market.cols, ¬ c.1 = key)
    (hs : s.Pairwise fun a b => a.1 < b.1) :
    List.Sublist (get_macro_data market w t r).dates market.dates ∧
    (get_macro_data market w t r).dates.Pairwise (· < ·) ∧
    (∀ (k' d : Nat), (get_macro_data market w t r).dates[k']? = some d →
      ∃ v : ℚ, (getColD (get_macro_data market w t r) key)[k']? = some (some v) ∧
        ∃ p ∈ s, p.2 = v ∧ p.1 ≤ d ∧ ∀ q ∈ s, q.1 ≤ d → q.1 ≤ p.1) ∧
    (∀ d ∈ market.dates, (∀ q ∈ s, d < q.1) →
      d ∉ (get_macro_data market w t r).dates) ∧
    (∀ c ∈ (get_macro_data market w t r).cols, ∀ x ∈ c.2, x.isSome = true) ∧
    ((∀ c ∈ market.cols, c.2.length = market.dates.length) →
      ∀ i < market.dates.length,
        (∀ c ∈ market.cols, ∃ j, j ≤ i ∧ (c.2.getD j none).isSome = true) →
        (∀ srs ∈ [w, t, r], ∃ p ∈ srs, p.1 ≤ market.dates.getD i 0) →
        market.dates.getD i 0 ∈ (get_macro_data market w t r).dates) := by
  have hkey3 : key ∈ ["WALCL", "WTREGEN", "RRPONTSYD"] := by
    rw [List.mem_cons, List.mem_cons, List.mem_singleton] at hk
    rcases hk with h | h | h <;> (rw [Prod.mk.injEq] at h; simp [h.1])
  have hchain : market.dates.Chain' (· ≤ ·) :=
    (hmd.imp fun hab => le_of_lt hab).chain'
  have hdatesub : List.Sublist (get_macro_data market w t r).dates market.dates := by
    rw [get_macro_data, addNetLiq_dates]
    exact dropna_dates_sublist (filledFrame market w t r)
  have hkeycol := getColD_aligned_key market w t r hk hclash hchain
  have hkeymem := key_col_mem_filled market w t r hk
  have hffeq : ffillCol none (alignFred s market.dates) =
      market.dates.map (locf s) := by
    rw [alignFred_eq_map, ffill_map_locf s market.dates hchain]
  refine ⟨hdatesub, List.Pairwise.sublist hdatesub hmd, ?_, ?_, ?_, ?_⟩
  · intro k' d hd
    rw [get_macro_data, addNetLiq_dates] at hd
    obtain ⟨i, hik, hid0⟩ := dropna_dates_getElem? (filledFrame market w t r) hd
    have hid : market.dates.getD i 0 = d := hid0
    have hikept : i ∈ keptIdx (filledFrame market w t r) := List.getElem?_mem hik
    obtain ⟨hilt, hirow⟩ := keptIdx_mem.mp hikept
    have hilt' : i < market.dates.length := hilt
    have hsome := rowOk_col hirow hkeymem
    rw [hffeq] at hsome
    rw [getD_map_lt (locf s) market.dates hilt' 0 none] at hsome
    rw [hid] at hsome
    obtain ⟨v, hv⟩ := Option.isSome_iff_exists.mp hsome
    refine ⟨v, ?_, locf_spec hs hv⟩
    rw [get_macro_data, getColD_addNetLiq_of_hasCol
      (hasCol_aligned_of_mem market w t r key hkey3), hkeycol]
    rw [List.getElem?_map, hik]
    rw [Option.map_some']
    rw [getD_map_lt (locf s) market.dates hilt' 0 none, hid, hv]
  · intro d hdm hafter hdmem
    rw [get_macro_data, addNetLiq_dates] at hdmem
    obtain ⟨i, hikept, hid0⟩ := List.mem_map.mp hdmem
    have hid : market.dates.getD i 0 = d := hid0
    obtain ⟨hilt, hirow⟩ := keptIdx_mem.mp hikept
    have hilt' : i < market.dates.length := hilt
    have hsome := rowOk_col hirow hkeymem
    rw [hffeq] at hsome
    rw [getD_map_lt (locf s) market.dates hilt' 0 none] at hsome
    rw [hid] at hsome
    have hnone : locf s d = none := by
      rw [locf, Option.map_eq_none', List.getLast?_eq_none_iff,
        List.filter_eq_nil_iff]
      intro q hq
      simpa using Nat.not_le.mpr (hafter q hq)
    rw [hnone] at hsome
    simp at hsome
  · intro c hc x hx
    rw [get_macro_data, addNetLiq_of_guard (hasCol_aligned_of_mem market w t r _ (by simp))
      (hasCol_aligned_of_mem market w t r _ (by simp))] at hc
    rcases List.mem_append.mp hc with h1 | h2
    · obtain ⟨c₀, hc₀mem, hceq⟩ := List.mem_map.mp (show c ∈
        (filledFrame market w t r).cols.map (fun c =>
          (c.1, (keptIdx (filledFrame market w t r)).map fun i => c.2.getD i none))
        from h1)
      rw [← hceq] at hx
      obtain ⟨i, hikept, rfl⟩ := List.mem_map.mp hx
      exact rowOk_col (keptIdx_mem.mp hikept).2 hc₀mem
    · have hc2 : c = ("Net_Liquidity", netLiqCol (alignedFrame market w t r)) := by
        simpa using h2
      subst hc2
      have hfW : hasCol (filledFrame market w t r) "WALCL" = true := by
        rw [hasCol_iff, colNames_filled]
        exact List.mem_append_right _ (by simp)
      have hfT : hasCol (filledFrame market w t r) "WTREGEN" = true := by
        rw [hasCol_iff, colNames_filled]
        exact List.mem_append_right _ (by simp)
      have hfR : hasCol (filledFrame market w t r) "RRPONTSYD" = true := by
        rw [hasCol_iff, colNames_filled]
        exact List.mem_append_right _ (by simp)
      exact netLiqZip_isSome (getColD_dropna_all_some hfW)
        (getColD_dropna_all_some hfT) (getColD_dropna_all_some hfR) x hx
  · intro hwf i hi hmkt hfred
    have hrow : rowOk (filledFrame market w t r).cols i = true := by
      rw [rowOk, List.all_eq_true]
      intro c' hc'
      obtain ⟨c₀, hc₀, rfl⟩ := List.mem_map.mp (show c' ∈
        (market.cols ++ fredAligned market.dates w t r).map
          (fun c => (c.1, ffillCol none c.2)) from hc')
      show ((ffillCol none c₀.2).getD i none).isSome = true
      rcases List.mem_append.mp hc₀ with hm | hf
      · obtain ⟨j, hji, hjs⟩ := hmkt c₀ hm
        exact ffillCol_getD_isSome c₀.2 none i
          (by rw [hwf c₀ hm]; exact hi) (Or.inr ⟨j, hji, hjs⟩)
      · simp only [fredAligned, List.mem_cons, List.mem_singleton,
          List.not_mem_nil, or_false] at hf
        rcases hf with h | h | h
        · subst h
          show ((ffillCol none (alignFred w market.dates)).getD i none).isSome = true
          rw [alignFred_eq_map, ffill_map_locf w market.dates hchain,
            getD_map_lt (locf w) market.dates hi 0 none]
          exact locf_isSome_of_obs (hfred w (by simp))
        · subst h
          show ((ffillCol none (alignFred t market.dates)).getD i none).isSome = true
          rw [alignFred_eq_map, ffill_map_locf t market.dates hchain,
            getD_map_lt (locf t) market.dates hi 0 none]
          exact locf_isSome_of_obs (hfred t (by simp))
        · subst h
          show ((ffillCol none (alignFred r market.dates)).getD i none).isSome = true
          rw [alignFred_eq_map, ffill_map_locf r market.dates hchain,
            getD_map_lt (locf r) market.dates hi 0 none]
          exact locf_isSome_of_obs (hfred r (by simp))
    rw [get_macro_data, addNetLiq_dates]
    exact List.mem_map.mpr ⟨i, keptIdx_mem.mpr ⟨hi, hrow⟩, rfl⟩

/-- C2 witness: a concrete run where the WALCL series starts only at the
second reference date, so the first date is excluded while the second —
eligible for every column — is retained: the axis is a strict ascending
sub-sequence of the reference dates containing date 1. -/
theorem alignment_correct_witness :
    List.Sublist (get_macro_data mktB [(1, 7)] [(0, 2)] [(0, 3)]).dates mktB.dates ∧
    (get_macro_data mktB [(1, 7)] [(0, 2)] [(0, 3)]).dates.Pairwise (· < ·) ∧
    mktB.dates.getD 1 0 ∈ (get_macro_data mktB [(1, 7)] [(0, 2)] [(0, 3)]).dates :=
  ⟨(alignment_correct mktB [(1, 7)] [(0, 2)] [(0, 3)] [(1, 7)] "WALCL"
      (by decide) (by decide) (by decide) (by decide)).1,
   (alignment_correct mktB [(1, 7)] [(0, 2)] [(0, 3)] [(1, 7)] "WALCL"
      (by decide) (by decide) (by decide) (by decide)).2.1,
   (alignment_correct mktB [(1, 7)] [(0, 2)] [(0, 3)] [(1, 7)] "WALCL"
      (by decide) (by decide) (by decide) (by decide)).2.2.2.2.2
     (by decide) 1 (by decide)
     (by
       intro c hc
       refine ⟨0, Nat.zero_le 1, ?_⟩
       have : c = ("Nasdaq", [some (1 : ℚ), some 2]) := by
         simpa [mktB] using hc
       rw [this]
       rfl)
     (by decide)⟩

unseal Rat.mul Rat.inv Rat.add Rat.sub in
/-- C3 counterexample: in `btTie` the single signal fires at date 10 with
trigger value 100, and the 20-day target (day 30) is exactly midway between
the index dates 28 and 32.  The claim's tie-toward-the-earlier-date rule
would read value 200 at day 28 and record change `200/100 - 1 = 1`, but the
code selects the later date 32 (value 300) and records change 2. -/
theorem horizon_tie_counterexample :
    backtest btTie (-3 / 100) = [⟨10, some (-1 / 25), 2⟩] ∧
      ((2 : ℚ) ≠ 200 / 100 - 1) := by
  constructor
  · decide
  · decide

/-- C3 (amended): for every detected event with trigger date `d` and trigger
value `v0 ≠ 0` on a strictly increasing date axis, the target date is
`d + 20` calendar days; if it lies strictly after the last date the event
produces no outcome record; otherwise the selected row is the one whose date
is nearest to the target with ties broken toward the LATER date, and the
recorded realized change equals `v1/v0 - 1` for its value `v1`. -/
theorem outcome_horizon_spec (f : BTFrame) (chg : List (Option ℚ)) (d : Nat)
    (hsort : f.dates.Pairwise (· < ·))
    (hlen : f.nasdaq.length = f.dates.length) :
    (∀ last, f.dates.getLast? = some last → last < d + 20 →
      evalEvent f chg d = none) ∧
    (∀ last, f.dates.getLast? = some last → d + 20 ≤ last →
      ∀ v0, locGet f.dates f.nasdaq d = some v0 → v0 ≠ 0 →
      ∀ c0, locGet f.dates chg d = some c0 →
      nearestIdx f.dates (d + 20) < f.dates.length ∧
      (∀ k < f.dates.length,
        ndist (f.dates.getD (nearestIdx f.dates (d + 20)) 0) (d + 20) ≤
          ndist (f.dates.getD k 0) (d + 20)) ∧
      (∀ k < f.dates.length,
        ndist (f.dates.getD k 0) (d + 20) =
          ndist (f.dates.getD (nearestIdx f.dates (d + 20)) 0) (d + 20) →
        f.dates.getD k 0 ≤ f.dates.getD (nearestIdx f.dates (d + 20)) 0) ∧
      evalEvent f chg d =
        some ⟨d, c0, f.nasdaq.getD (nearestIdx f.dates (d + 20)) 0 / v0 - 1⟩) := by
  constructor
  · intro last hlast hover
    cases hv0 : locGet f.dates f.nasdaq d with
    | none => simp [evalEvent, hv0]
    | some v0 =>
      have : d + 20 > last := hover
      simp [evalEvent, hv0, hlast, this]
  · intro last hlast hle v0 hv0 hv0ne c0 hc0
    have hne : f.dates ≠ [] := by
      intro hnil
      rw [hnil] at hlast
      exact Option.noConfusion hlast
    obtain ⟨hjlt, hjmin, hjtie⟩ := nearestIdx_spec f.dates (d + 20) hsort hne
    refine ⟨hjlt, hjmin, hjtie, ?_⟩
    have hjlt' : nearestIdx f.dates (d + 20) < f.nasdaq.length := by
      rw [hlen]
      exact hjlt
    have hv1 : f.nasdaq[nearestIdx f.dates (d + 20)]? =
        some (f.nasdaq.getD (nearestIdx f.dates (d + 20)) 0) := by
      rw [List.getElem?_eq_getElem hjlt']
      congr 1
      rw [List.getD_eq_getElem?_getD, List.getElem?_eq_getElem hjlt']
      rfl
    have hnotover : ¬ d + 20 > last := by omega
    have hnd : f.dates.Nodup := hsort.imp fun hab => Nat.ne_of_lt hab
    have hj : getIndexerNearest f.dates (d + 20) =
        some (nearestIdx f.dates (d + 20)) := by
      rw [getIndexerNearest, if_pos hnd]
    simp only [evalEvent, hv0, hlast, Option.bind_eq_bind, Option.some_bind]
    rw [if_neg hnotover]
    simp only [hj, hv1, hc0, Option.some_bind]
    have harith : (f.nasdaq.getD (nearestIdx f.dates (d + 20)) 0 - v0) / v0 =
        f.nasdaq.getD (nearestIdx f.dates (d + 20)) 0 / v0 - 1 := by
      rw [sub_div, div_self hv0ne]
    rw [harith]

unseal Rat.mul Rat.inv Rat.add Rat.sub in
/-- C3 witness: a concrete event in `btOk` whose 20-day target lies inside
the axis; the outcome record carries change `v1/v0 - 1`. -/
theorem outcome_horizon_spec_witness :
    evalEvent btOk (pctChange 10 btOk.usdjpy) 10 =
      some ⟨10, some (-1 / 25),
        btOk.nasdaq.getD (nearestIdx btOk.dates (10 + 20)) 0 / 100 - 1⟩ :=
  ((outcome_horizon_spec btOk (pctChange 10 btOk.usdjpy) 10 (by decide)
      (by decide)).2 31 (by decide) (by decide) 100 (by decide) (by decide)
      (some (-1 / 25)) (by decide)).2.2.2

/-! ### Signal-detection lemmas -/

theorem sigCell_iff {t : ℚ} {o : Option ℚ} :
    sigCell t o = true ↔ ∃ c, o = some c ∧ c < t := by
  cases o <;> simp [sigCell]

theorem map_fst_zip_sublist {α β : Type} :
    ∀ (l1 : List α) (l2 : List β),
      List.Sublist ((l1.zip l2).map Prod.fst) l1
  | [], _ => by simp
  | _ :: _, [] => by simp
  | a :: l1, b :: l2 => by
    rw [List.zip_cons_cons, List.map_cons]
    exact List.Sublist.cons₂ a (map_fst_zip_sublist l1 l2)

theorem signalDates_sublist (dates : List Nat) (chg : List (Option ℚ)) (t : ℚ) :
    List.Sublist (signalDates dates chg t) dates :=
  List.Sublist.trans ((List.filter_sublist _).map Prod.fst)
    (map_fst_zip_sublist dates chg)

theorem signalDates_mem {dates : List Nat} {chg : List (Option ℚ)} {t : ℚ}
    (hlen : dates.length = chg.length) {d : Nat} :
    d ∈ signalDates dates chg t ↔
      ∃ i < dates.length, dates.getD i 0 = d ∧
        ∃ c, chg.getD i none = some c ∧ c < t := by
  constructor
  · intro hd
    obtain ⟨p, hpf, hfst⟩ := List.mem_map.mp hd
    obtain ⟨hpz, hpred⟩ := List.mem_filter.mp hpf
    obtain ⟨i, hi, hzi⟩ := List.mem_iff_getElem.mp hpz
    have hi1 : i < dates.length := by
      rw [List.length_zip] at hi
      omega
    have hi2 : i < chg.length := by
      rw [List.length_zip] at hi
      omega
    rw [List.getElem_zip] at hzi
    obtain ⟨c, hc, hcT⟩ := sigCell_iff.mp hpred
    refine ⟨i, hi1, ?_, c, ?_, hcT⟩
    · rw [List.getD_eq_getElem?_getD, List.getElem?_eq_getElem hi1]
      rw [← hfst, ← hzi]
      rfl
    · rw [List.getD_eq_getElem?_getD, List.getElem?_eq_getElem hi2]
      rw [show chg[i] = p.2 from by rw [← hzi], hc]
      rfl
  · rintro ⟨i, hi1, hdi, c, hc, hcT⟩
    have hi2 : i < chg.length := by omega
    have hiz : i < (dates.zip chg).length := by
      rw [List.length_zip]
      omega
    refine List.mem_map.mpr ⟨(dates.zip chg)[i], List.mem_filter.mpr
      ⟨List.getElem_mem hiz, ?_⟩, ?_⟩
    · rw [List.getElem_zip]
      refine sigCell_iff.mpr ⟨c, ?_, hcT⟩
      rw [← hc, List.getD_eq_getElem?_getD, List.getElem?_eq_getElem hi2]
      rfl
    · rw [List.getElem_zip]
      rw [← hdi, List.getD_eq_getElem?_getD, List.getElem?_eq_getElem hi1]
      rfl

theorem signalDates_length :
    ∀ (dates : List Nat) (chg : List (Option ℚ)) (t : ℚ),
      dates.length = chg.length →
      (signalDates dates chg t).length = (chg.filter (sigCell t)).length := by
  intro dates
  induction dates with
  | nil =>
    intro chg t hlen
    have : chg = [] := by
      cases chg with
      | nil => rfl
      | cons b l => simp at hlen
    subst this
    rfl
  | cons a l ih =>
    intro chg t hlen
    cases chg with
    | nil => simp at hlen
    | cons b chg' =>
      have hlen' : l.length = chg'.length := by simpa using hlen
      have hstep : signalDates (a :: l) (b :: chg') t =
          if sigCell t b = true then a :: signalDates l chg' t
          else signalDates l chg' t := by
        rw [signalDates, List.zip_cons_cons, List.filter_cons]
        by_cases hb : sigCell t b = true
        · rw [if_pos hb, if_pos hb, List.map_cons]
          rfl
        · rw [if_neg hb, if_neg hb]
          rfl
      rw [hstep, List.filter_cons]
      by_cases hb : sigCell t b = true
      · rw [if_pos hb, if_pos hb, List.length_cons, List.length_cons,
          ih chg' t hlen']
      · rw [if_neg hb, if_neg hb, ih chg' t hlen']

theorem pctChange_getElem?_lt {v : List ℚ} {i : Nat} (hi : i < v.length) :
    (pctChange 10 v)[i]? =
      some (if 10 ≤ i then some (v.getD i 0 / v.getD (i - 10) 0 - 1) else none) := by
  rw [pctChange, List.getElem?_map, List.getElem?_range hi]
  rfl

theorem pctChange_length (w : Nat) (v : List ℚ) :
    (pctChange w v).length = v.length := by
  rw [pctChange, List.length_map, List.length_range]

/-! ### Per-event evaluation lemmas -/

theorem evalEvent_sigDate {f : BTFrame} {chg : List (Option ℚ)} {d : Nat}
    {rec : OutRec} (h : evalEvent f chg d = some rec) : rec.sigDate = d := by
  cases hv0 : locGet f.dates f.nasdaq d with
  | none => simp [evalEvent, hv0] at h
  | some v0 =>
    cases hlast : f.dates.getLast? with
    | none => simp [evalEvent, hv0, hlast] at h
    | some last =>
      by_cases hover : d + 20 > last
      · simp [evalEvent, hv0, hlast, hover] at h
      · cases hj : getIndexerNearest f.dates (d + 20) with
        | none => simp [evalEvent, hv0, hlast, hover, hj] at h
        | some j =>
          cases hv1 : f.nasdaq[j]? with
          | none => simp [evalEvent, hv0, hlast, hover, hj, hv1] at h
          | some v1 =>
            cases hc0 : locGet f.dates chg d with
            | none => simp [evalEvent, hv0, hlast, hover, hj, hv1, hc0] at h
            | some c0 =>
              simp only [evalEvent, hv0, hlast, hj, hv1, hc0,
                Option.bind_eq_bind, Option.some_bind, if_neg hover,
                Option.some.injEq] at h
              rw [← h]

theorem evalEvent_none_of_not_nodup {f : BTFrame} {chg : List (Option ℚ)}
    {d : Nat} (hnd : ¬ f.dates.Nodup) : evalEvent f chg d = none := by
  have hj : getIndexerNearest f.dates (d + 20) = none := by
    rw [getIndexerNearest, if_neg hnd]
  cases hv0 : locGet f.dates f.nasdaq d with
  | none => simp [evalEvent, hv0]
  | some v0 =>
    cases hlast : f.dates.getLast? with
    | none => simp [evalEvent, hv0, hlast]
    | some last =>
      by_cases hover : d + 20 > last
      · simp [evalEvent, hv0, hlast, hover]
      · simp [evalEvent, hv0, hlast, hover, hj]

theorem processEvents_dates_sublist (f : BTFrame) (chg : List (Option ℚ)) :
    ∀ evs : List Nat,
      List.Sublist ((processEvents f chg evs).map fun rec => rec.sigDate) evs := by
  intro evs
  induction evs with
  | nil => simp [processEvents]
  | cons d evs ih =>
    rw [processEvents, List.filterMap_cons]
    cases he : evalEvent f chg d with
    | none => exact List.Sublist.cons d ih
    | some rec =>
      rw [List.map_cons, evalEvent_sigDate he]
      exact List.Sublist.cons₂ d ih

/-- C4: with the fixed window `W = 10`, the rolling change at row `i` equals
`value[i]/value[i-10] - 1` and is undefined for `i < 10`; an event fires at
row `i` exactly when `T < 0` and `change[i] < T`, or `T > 0` and
`change[i] > T` (the source instantiates a negative threshold, so the
theorem takes `T < 0`, under which the positive branch is vacuous); every
qualifying row produces its own event (one event per such row, no
debouncing), and the event dates are emitted in ascending order. -/
theorem signal_detection_spec (dates : List Nat) (v : List ℚ) (T : ℚ)
    (hT : T < 0) (hlen : dates.length = v.length)
    (hsort : dates.Pairwise (· < ·)) :
    (∀ i < 10, i < v.length → (pctChange 10 v)[i]? = some none) ∧
    (∀ i, 10 ≤ i → i < v.length → (pctChange 10 v)[i]? =
      some (some (v.getD i 0 / v.getD (i - 10) 0 - 1))) ∧
    (∀ d, d ∈ signalDates dates (pctChange 10 v) T ↔
      ∃ i < dates.length, dates.getD i 0 = d ∧
        ∃ c, (pctChange 10 v).getD i none = some c ∧
          ((T < 0 ∧ c < T) ∨ (T > 0 ∧ c > T))) ∧
    ((signalDates dates (pctChange 10 v) T).length =
      ((pctChange 10 v).filter (sigCell T)).length) ∧
    (signalDates dates (pctChange 10 v) T).Pairwise (· < ·) := by
  have hlen2 : dates.length = (pctChange 10 v).length := by
    rw [pctChange_length]
    exact hlen
  refine ⟨?_, ?_, ?_, signalDates_length dates (pctChange 10 v) T hlen2,
    List.Pairwise.sublist (signalDates_sublist dates (pctChange 10 v) T) hsort⟩
  · intro i hi10 hiv
    rw [pctChange_getElem?_lt hiv, if_neg (by omega)]
  · intro i hi10 hiv
    rw [pctChange_getElem?_lt hiv, if_pos hi10]
  · intro d
    rw [signalDates_mem hlen2]
    constructor
    · rintro ⟨i, hi, hdi, c, hc, hcT⟩
      exact ⟨i, hi, hdi, c, hc, Or.inl ⟨hT, hcT⟩⟩
    · rintro ⟨i, hi, hdi, c, hc, hcond⟩
      rcases hcond with ⟨_, hcT⟩ | ⟨hTpos, _⟩
      · exact ⟨i, hi, hdi, c, hc, hcT⟩
      · exact absurd (lt_trans hT hTpos) (lt_irrefl T)

/-- C4 witness: in `btOk` the change at row 10 is defined by the formula and
the emitted signal dates are ascending. -/
theorem signal_detection_spec_witness :
    (pctChange 10 btOk.usdjpy)[10]? =
      some (some (btOk.usdjpy.getD 10 0 / btOk.usdjpy.getD 0 0 - 1)) ∧
    (signalDates btOk.dates (pctChange 10 btOk.usdjpy) (-3 / 100)).Pairwise
      (· < ·) :=
  ⟨(signal_detection_spec btOk.dates btOk.usdjpy (-3 / 100) (by norm_num)
      (by decide) (by decide)).2.1 10 (by omega) (by decide),
   (signal_detection_spec btOk.dates btOk.usdjpy (-3 / 100) (by norm_num)
      (by decide) (by decide)).2.2.2.2⟩

/-- C6: an event whose trigger value `v0` or horizon value `v1` cannot be
read (the label lookup or the positional lookup fails, an exception absorbed
by the per-event `except: pass`) is silently dropped — it evaluates to no
record — and the records produced for the events before and after it are
exactly the same, so a single event's failure never aborts the backtest. -/
theorem event_failure_isolated (f : BTFrame) (chg : List (Option ℚ)) (d : Nat)
    (h : locGet f.dates f.nasdaq d = none ∨
      f.nasdaq[nearestIdx f.dates (d + 20)]? = none)
    (l1 l2 : List Nat) :
    evalEvent f chg d = none ∧
    processEvents f chg (l1 ++ d :: l2) =
      processEvents f chg l1 ++ processEvents f chg l2 := by
  have hnone : evalEvent f chg d = none := by
    rcases h with h | h
    · simp [evalEvent, h]
    · cases hv0 : locGet f.dates f.nasdaq d with
      | none => simp [evalEvent, hv0]
      | some v0 =>
        cases hlast : f.dates.getLast? with
        | none => simp [evalEvent, hv0, hlast]
        | some last =>
          by_cases hover : d + 20 > last
          · simp [evalEvent, hv0, hlast, hover]
          · by_cases hnd : f.dates.Nodup
            · have hj : getIndexerNearest f.dates (d + 20) =
                  some (nearestIdx f.dates (d + 20)) := by
                rw [getIndexerNearest, if_pos hnd]
              simp [evalEvent, hv0, hlast, hover, hj, h]
            · have hj : getIndexerNearest f.dates (d + 20) = none := by
                rw [getIndexerNearest, if_neg hnd]
              simp [evalEvent, hv0, hlast, hover, hj]
  refine ⟨hnone, ?_⟩
  rw [processEvents, processEvents, processEvents, List.filterMap_append]
  congr 1
  rw [List.filterMap_cons, hnone]

/-- C6 witness: the date 99 is absent from `btOk`'s index, so its trigger
lookup fails; the event is dropped and the surrounding events' records are
untouched. -/
theorem event_failure_isolated_witness :
    evalEvent btOk (pctChange 10 btOk.usdjpy) 99 = none ∧
    processEvents btOk (pctChange 10 btOk.usdjpy) [10, 99] =
      processEvents btOk (pctChange 10 btOk.usdjpy) [10] ++
        processEvents btOk (pctChange 10 btOk.usdjpy) [] :=
  ⟨(event_failure_isolated btOk (pctChange 10 btOk.usdjpy) 99
      (Or.inl (by decide)) [10] []).1,
   (event_failure_isolated btOk (pctChange 10 btOk.usdjpy) 99
      (Or.inl (by decide)) [10] []).2⟩

/-- C7: for a fixed window and two negative thresholds `T2 < T1 < 0`, the
events detected at the more negative threshold `T2` form a sub-sequence (in
particular a subset) of those detected at `T1`, so making the threshold more
negative never increases the number of detected events. -/
theorem signal_threshold_monotone (dates : List Nat) (chg : List (Option ℚ))
    (T1 T2 : ℚ) (h21 : T2 < T1) (h10 : T1 < 0) :
    List.Sublist (signalDates dates chg T2) (signalDates dates chg T1) ∧
    signalDates dates chg T2 ⊆ signalDates dates chg T1 ∧
    (signalDates dates chg T2).length ≤ (signalDates dates chg T1).length := by
  have hsub : List.Sublist ((dates.zip chg).filter fun p => sigCell T2 p.2)
      ((dates.zip chg).filter fun p => sigCell T1 p.2) := by
    refine List.monotone_filter_right _ fun p hp => ?_
    obtain ⟨c, hc, hcT⟩ := sigCell_iff.mp hp
    exact sigCell_iff.mpr ⟨c, hc, lt_trans hcT h21⟩
  have hmap := hsub.map Prod.fst
  exact ⟨hmap, hmap.subset, hmap.length_le⟩

/-- C7 witness: tightening the threshold from -3% to -5% on `btOk` does not
increase the number of detected events. -/
theorem signal_threshold_monotone_witness :
    (signalDates btOk.dates (pctChange 10 btOk.usdjpy) (-5 / 100)).length ≤
      (signalDates btOk.dates (pctChange 10 btOk.usdjpy) (-3 / 100)).length :=
  (signal_threshold_monotone btOk.dates (pctChange 10 btOk.usdjpy)
    (-3 / 100) (-5 / 100) (by norm_num) (by norm_num)).2.2

unseal Rat.mul Rat.inv Rat.add Rat.sub in
/-- C8: for every input, no two rows of the reported result table share the
same trigger date.  On a uniquely valued date axis each date can fire at
most once (each qualifying row contributes one record carrying its own
date), and on a non-unique axis every evaluated event hits the
`InvalidIndexError` that `get_indexer` raises (absorbed by the per-event
`except`), so the table is empty; the code contains no separate
de-duplication pass — the output table is duplicate-free by date key as
stated, while the raw event list is never post-filtered. -/
theorem backtest_unique_trigger_dates (f : BTFrame) (T : ℚ) :
    ((backtest f T).map fun rec => rec.sigDate).Pairwise (· ≠ ·) := by
  by_cases hnd : f.dates.Nodup
  · have h1 := processEvents_dates_sublist f (pctChange 10 f.usdjpy)
      (signalDates f.dates (pctChange 10 f.usdjpy) T)
    have h2 := signalDates_sublist f.dates (pctChange 10 f.usdjpy) T
    have hsub : List.Sublist ((backtest f T).map fun rec => rec.sigDate)
        f.dates := List.Sublist.trans h1 h2
    exact List.Pairwise.sublist hsub hnd
  · have hempty : backtest f T = [] := by
      rw [backtest, processEvents, List.filterMap_eq_nil_iff]
      intro d _
      exact evalEvent_none_of_not_nodup hnd
    rw [hempty]
    exact List.Pairwise.nil

/-- C9 counterexample: `corr_matrix['Nasdaq']` is a full column of the
correlation matrix, so the displayed report over the two-column frame
`corrF` holds one pair per column — the target `Nasdaq` itself included —
and has two entries, while the claim's list of (other-column, correlation)
pairs would hold exactly one. -/
theorem corr_report_includes_target :
    Option.map List.length (targetCorrReport corrF "Nasdaq") = some 2 ∧
    ∀ x : String × ℝ, targetCorrReport corrF "Nasdaq" ≠ some [x] := by
  have hlen : Option.map List.length (targetCorrReport corrF "Nasdaq") = some 2 := by
    rw [targetCorrReport, if_pos (by decide)]
    simp [sortDescByVal, corrRow, corrF, List.length_mergeSort]
  refine ⟨hlen, fun x hx => ?_⟩
  rw [hx] at hlen
  simp at hlen

/-- C9 (amended): for every frame and every target column present in it, the
reporter computes the Pearson correlation of the target against every
numeric column of the frame (the target itself included, with its
self-correlation), and the report is that list of (column, correlation)
pairs sorted in descending order of correlation value. -/
theorem corr_report_sorted (fr : RawFrame) (t : String)
    (h : hasCol fr t = true) :
    targetCorrReport fr t = some (sortDescByVal (corrRow fr t)) ∧
    (sortDescByVal (corrRow fr t)).Perm (corrRow fr t) ∧
    (sortDescByVal (corrRow fr t)).Pairwise fun a b => b.2 ≤ a.2 := by
  refine ⟨by rw [targetCorrReport, if_pos h], List.mergeSort_perm _ _, ?_⟩
  have hs := @List.sorted_mergeSort (String × ℝ)
    (fun a b => decide (b.2 ≤ a.2))
    (fun a b c hab hbc => by
      simp only [decide_eq_true_eq] at hab hbc ⊢
      exact le_trans hbc hab)
    (fun a b => by
      simp only [Bool.or_eq_true, decide_eq_true_eq]
      exact le_total b.2 a.2)
    (corrRow fr t)
  exact hs.imp fun hab => by simpa using hab

/-- C9 witness: the report for `Nasdaq` over `corrF` exists and is sorted in
descending order of correlation value. -/
theorem corr_report_sorted_witness :
    targetCorrReport corrF "Nasdaq" =
      some (sortDescByVal (corrRow corrF "Nasdaq")) ∧
    (sortDescByVal (corrRow corrF "Nasdaq")).Pairwise fun a b => b.2 ≤ a.2 :=
  ⟨(corr_report_sorted corrF "Nasdaq" (by decide)).1,
   (corr_report_sorted corrF "Nasdaq" (by decide)).2.2⟩

end LiquidityMonitor
